import Mathlib

/-!
Verification of a pure-Rust RC5 block-cipher implementation.

The development shallowly embeds the two source files (`src/lib.rs`,
`src/traits.rs`) of the repository.  Machine words of the Rust generic
parameter `T` (one of `u16`, `u32`, `u64`) are modelled as `Nat` values
together with the word size in bytes `w` (2, 4 or 8); every wrapping
operation reduces modulo `2 ^ (8 * w)`.  Operations that can panic in
Rust (out-of-range slicing, `copy_from_slice` length mismatch,
`try_into().unwrap()` overflow, out-of-bounds indexing) return `Option`,
with `none` standing for the panic.  `encode` / `decode` return
`Option (Except String (List Nat))`: `some (Except.error _)` is the
`Err(..)` value of the Rust function, `none` is a panic.
-/

namespace RC5Impl

/-- The modulus `2 ^ W` of a word of `w` bytes (`W = 8 * w` bits). -/
def M (w : Nat) : Nat := 2 ^ (8 * w)

/-- `u{W}::wrapping_add` from `traits.rs`. -/
def wrapping_add (w a b : Nat) : Nat := (a + b) % M w

/-- `u{W}::wrapping_sub` from `traits.rs` (two's-complement wraparound). -/
def wrapping_sub (w a b : Nat) : Nat := (a + (M w - b % M w)) % M w

/-- `u{W}::wrapping_mul` from `traits.rs`. -/
def wrapping_mul (w a b : Nat) : Nat := (a * b) % M w

/-- `T::from_usize(val)` from `traits.rs`: `val as T`, a truncating cast. -/
def from_usize (w x : Nat) : Nat := x % M w

/-- Circular left rotation of a `W`-bit value by `a % W` positions
(the semantics of Rust's `u{W}::rotate_left`). -/
def rotl (W v a : Nat) : Nat :=
  (v % 2 ^ (W - a % W)) * 2 ^ (a % W) + v / 2 ^ (W - a % W)

/-- Circular right rotation of a `W`-bit value by `a % W` positions
(the semantics of Rust's `u{W}::rotate_right`). -/
def rotr (W v a : Nat) : Nat :=
  v / 2 ^ (a % W) + (v % 2 ^ (a % W)) * 2 ^ (W - a % W)

/-- `Unsigned16To64::rotate_left` from `traits.rs`:
`self.rotate_left(other.try_into().unwrap())`.  The amount (a `T`
value) is converted to `u32` with `try_into().unwrap()`, which panics
when the amount does not fit in 32 bits (possible only for `T = u64`). -/
def rotate_left (w v a : Nat) : Option Nat :=
  if a < 2 ^ 32 then some (rotl (8 * w) v a) else none

/-- `Unsigned16To64::rotate_right` from `traits.rs`, same `try_into`
conversion of the amount as `rotate_left`. -/
def rotate_right (w v a : Nat) : Option Nat :=
  if a < 2 ^ 32 then some (rotr (8 * w) v a) else none

/-- `Unsigned16To64::copy_from_slice(plaintext, start, end)` from
`traits.rs`: takes `plaintext[start..end]` (panics when `start > end`
or `end > plaintext.len()`) and copies it into a fresh
`[0u8; size_of::<T>()]` array (panics when the slice length differs
from `size_of::<T>() = w`). -/
def copy_from_slice (w : Nat) (p : List Nat) (start stop : Nat) : Option (List Nat) :=
  if start ≤ stop ∧ stop ≤ p.length ∧ stop - start = w then
    some ((p.drop start).take (stop - start))
  else none

/-- `T::from_le_bytes` from `traits.rs`: little-endian byte decoding. -/
def from_le_bytes (bs : List Nat) : Nat :=
  bs.foldr (fun b acc => b + 256 * acc) 0

/-- `T::to_le_bytes` from `traits.rs`: little-endian byte encoding
into exactly `w` bytes. -/
def to_le_bytes (w : Nat) (v : Nat) : List Nat :=
  match w with
  | 0 => []
  | w + 1 => v % 256 :: to_le_bytes w (v / 256)

/-- The magic constant `P_W` of `CipherMagicConstants` in `traits.rs`
(the source stores it as a hex string and decodes it with
`from_str_radix`; the numeric value is embedded directly). -/
def P_W (w : Nat) : Nat :=
  if w = 2 then 0xb7e1
  else if w = 4 then 0xb7e15163
  else if w = 8 then 0xb7e151628aed2a6b
  else 0

/-- The magic constant `Q_W` of `CipherMagicConstants` in `traits.rs`
(for `u64` the source string is `"9e3779b97f47c15"`, embedded verbatim). -/
def Q_W (w : Nat) : Nat :=
  if w = 2 then 0x9e37
  else if w = 4 then 0x9e3779b9
  else if w = 8 then 0x9e3779b97f47c15
  else 0

end RC5Impl

/-- The `RC5<T>` struct of `lib.rs`: raw key bytes, word size in bytes
(`words`), round count (`rounds`) and required key byte length
(`bytes`).  The type parameter `T` is represented separately by the
word size `w` passed to each operation. -/
structure RC5 where
  key : List Nat
  words : Nat
  rounds : Nat
  bytes : Nat

namespace RC5

open RC5Impl

/-- The chunk start positions produced by
`(0..(key.len() as u8)).collect().into_iter().step_by(words)` in
`generate_block_cipher`: every `step`-th value of `0, 1, ..., n-1`,
where `n` is the key length truncated to `u8`. -/
def stepPositions (step n : Nat) : List Nat :=
  (List.range ((n + step - 1) / step)).map (fun k => step * k)

/-- `Option`-propagating map, modelling an iterator pipeline whose body
can panic: the first panic aborts the whole computation. -/
def mapOption (f : Nat → Option Nat) : List Nat → Option (List Nat)
  | [] => some []
  | x :: xs =>
    match f x with
    | none => none
    | some y =>
      match mapOption f xs with
      | none => none
      | some ys => some (y :: ys)

/-- The expanded key buffer `l` built at the start of
`generate_block_cipher` in `lib.rs`: `vec![T::min()]` for an empty key,
otherwise one word per chunk position, each word read with
`T::copy_from_slice(&self.key, i, i + 4)` (the chunk width `4` is
hard-coded in the source) and decoded little-endian.  `step_by(0)`
panics in Rust, hence the `words = 0` case. -/
def buildL (m : RC5) (w : Nat) : Option (List Nat) :=
  if m.key = [] then some [0]
  else if m.words = 0 then none
  else
    mapOption
      (fun i => (copy_from_slice w m.key i (i + 4)).map from_le_bytes)
      (stepPositions m.words (m.key.length % 256))

/-- The initial `s_table` of `generate_block_cipher`:
`(0..2*(rounds+1)).map(|x| T::from_usize(x).wrapping_mul(q_w).wrapping_add(p_w))`. -/
def initS (w t : Nat) : List Nat :=
  (List.range t).map
    (fun x => wrapping_add w (wrapping_mul w (from_usize w x) (Q_W w)) (P_W w))

/-- The mixing loop of `generate_block_cipher` in `lib.rs`, one
constructor case per iteration of `for _ in 0..(3 * max_iters)`.
Each iteration reads `s_table[i]` and `l[j]` (panicking when out of
range), computes
`a = s_table[i].wrapping_add(a).wrapping_add(b).rotate_left(3)` and
`b = (l[j].wrapping_add(a).wrapping_add(b)).rotate_left(a.wrapping_add(b))`
(with the just-updated `a`), stores them back, and steps
`i = (i+1) % s_len`, `j = (j+1) % l_len`. -/
def mixLoop (w : Nat) :
    Nat → List Nat → List Nat → Nat → Nat → Nat → Nat → Option (List Nat × List Nat)
  | 0, s, l, _, _, _, _ => some (s, l)
  | f + 1, s, l, a, b, i, j =>
    match s.get? i with
    | none => none
    | some si =>
      match rotate_left w (wrapping_add w (wrapping_add w si a) b) (from_usize w 3) with
      | none => none
      | some a2 =>
        match l.get? j with
        | none => none
        | some lj =>
          match rotate_left w (wrapping_add w (wrapping_add w lj a2) b)
              (wrapping_add w a2 b) with
          | none => none
          | some b2 =>
            mixLoop w f (s.set i a2) (l.set j b2) a2 b2
              ((i + 1) % s.length) ((j + 1) % l.length)

/-- Key-schedule mixing loop as the specification literally states it
(§4.2 step 3): `A = rotate_left(S[i] + A + B, 3)`,
`B = rotate_left(L[j] + A + B, A)` — the rotation amount of the `B`
update is the current (just-updated) value of `A`, taken mod `W` —
then `S[i] = A`, `L[j] = B`, `i = (i+1) mod t`, `j = (j+1) mod len(L)`.
Written with total `W`-bit rotation, following the spec's words. -/
def mixSpecRotA (W : Nat) :
    Nat → List Nat → List Nat → Nat → Nat → Nat → Nat → List Nat × List Nat
  | 0, s, l, _, _, _, _ => (s, l)
  | f + 1, s, l, a, b, i, j =>
    let a2 := rotl W ((s.getD i 0 + a + b) % 2 ^ W) 3
    let b2 := rotl W ((l.getD j 0 + a2 + b) % 2 ^ W) a2
    mixSpecRotA W f (s.set i a2) (l.set j b2) a2 b2
      ((i + 1) % s.length) ((j + 1) % l.length)

/-- Key-schedule mixing loop with the `B` update rotating by the sum
`A + B` (wrapping): `A = rotate_left(S[i] + A + B, 3)`,
`B = rotate_left(L[j] + A + B, A + B)` with the just-updated `A` and
the previous `B`, then the same stores and index steps as above. -/
def mixSpecRotAB (W : Nat) :
    Nat → List Nat → List Nat → Nat → Nat → Nat → Nat → List Nat × List Nat
  | 0, s, l, _, _, _, _ => (s, l)
  | f + 1, s, l, a, b, i, j =>
    let a2 := rotl W ((s.getD i 0 + a + b) % 2 ^ W) 3
    let b2 := rotl W ((l.getD j 0 + a2 + b) % 2 ^ W) ((a2 + b) % 2 ^ W)
    mixSpecRotAB W f (s.set i a2) (l.set j b2) a2 b2
      ((i + 1) % s.length) ((j + 1) % l.length)

/-- `generate_block_cipher` from `lib.rs`: build `l`, build the initial
`s_table`, run the mixing loop `3 * max(s_len, l_len)` times starting
from `a = b = T::min() = 0`, `i = j = 0`, and return the final
`s_table`. -/
def generate_block_cipher (m : RC5) (w : Nat) : Option (List Nat) :=
  match buildL m w with
  | none => none
  | some l =>
    let s := initS w (2 * (m.rounds + 1))
    match mixLoop w (3 * max s.length l.length) s l 0 0 0 0 with
    | none => none
    | some (s2, _) => some s2

/-- One iteration of the encryption round loop in `encode`
(`for i in 1..(rounds + 1)`), at round index `k`:
`a = (a ^ b).rotate_left(b).wrapping_add(s_table[2*k])` then
`b = (b ^ a).rotate_left(a).wrapping_add(s_table[2*k+1])` with the
just-updated `a`. -/
def encStep (w : Nat) (s : List Nat) (a b k : Nat) : Option (Nat × Nat) :=
  match s.get? (2 * k) with
  | none => none
  | some s2k =>
    match rotate_left w (a ^^^ b) b with
    | none => none
    | some r =>
      let a2 := wrapping_add w r s2k
      match s.get? (2 * k + 1) with
      | none => none
      | some s2k1 =>
        match rotate_left w (b ^^^ a2) a2 with
        | none => none
        | some r2 => some (a2, wrapping_add w r2 s2k1)

/-- The encryption round loop of `encode`: `fuel` remaining iterations,
current round index `lo` (the source runs `lo = 1, ..., rounds`). -/
def encRounds (w : Nat) (s : List Nat) : Nat → Nat → Nat → Nat → Option (Nat × Nat)
  | a, b, _, 0 => some (a, b)
  | a, b, lo, f + 1 =>
    match encStep w s a b lo with
    | none => none
    | some (a2, b2) => encRounds w s a2 b2 (lo + 1) f

/-- One iteration of the decryption round loop in `decode`
(`for i in (1..(rounds + 1)).rev()`), at round index `k`:
`b = b.wrapping_sub(s_table[2*k+1]).rotate_right(a).xor(a)` then
`a = a.wrapping_sub(s_table[2*k]).rotate_right(b).xor(b)` with the
just-updated `b`. -/
def decStep (w : Nat) (s : List Nat) (a b k : Nat) : Option (Nat × Nat) :=
  match s.get? (2 * k + 1) with
  | none => none
  | some s2k1 =>
    match rotate_right w (wrapping_sub w b s2k1) a with
    | none => none
    | some r =>
      let b2 := r ^^^ a
      match s.get? (2 * k) with
      | none => none
      | some s2k =>
        match rotate_right w (wrapping_sub w a s2k) b2 with
        | none => none
        | some r2 => some (r2 ^^^ b2, b2)

/-- The decryption round loop of `decode`: the source iterates the
round index downwards from `lo + fuel - 1` to `lo` (with `lo = 1`). -/
def decRounds (w : Nat) (s : List Nat) : Nat → Nat → Nat → Nat → Option (Nat × Nat)
  | a, b, _, 0 => some (a, b)
  | a, b, lo, f + 1 =>
    match decStep w s a b (lo + f) with
    | none => none
    | some (a2, b2) => decRounds w s a2 b2 lo f

/-- The body of `encode` after the key-length check: split the input
into the little-endian words `A` (bytes `[0, words)`) and `B` (bytes
`[words, plaintext.len())`), generate the key schedule, add `s[0]` /
`s[1]`, run the round loop, and concatenate the little-endian bytes of
the final `A` and `B`. -/
def encodeBody (m : RC5) (w : Nat) (plaintext : List Nat) : Option (List Nat) :=
  match copy_from_slice w plaintext 0 m.words with
  | none => none
  | some aB =>
    match copy_from_slice w plaintext m.words plaintext.length with
    | none => none
    | some bB =>
      match generate_block_cipher m w with
      | none => none
      | some s =>
        match s.get? 0, s.get? 1 with
        | some s0, some s1 =>
          let a := wrapping_add w (from_le_bytes aB) s0
          let b := wrapping_add w (from_le_bytes bB) s1
          match encRounds w s a b 1 m.rounds with
          | none => none
          | some (a2, b2) => some (to_le_bytes w a2 ++ to_le_bytes w b2)
        | _, _ => none

/-- `encode` from `lib.rs`: key-length check first
(`Err("invalid encryption key length")`), then the encryption body;
`none` models a panic, `some (Except.ok _)` the `Ok` ciphertext. -/
def encode (m : RC5) (w : Nat) (plaintext : List Nat) :
    Option (Except String (List Nat)) :=
  if m.key.length ≠ m.bytes then some (Except.error "invalid encryption key length")
  else (encodeBody m w plaintext).map Except.ok

/-- The body of `decode` after the key-length check: split the input
into words `A` and `B`, generate the key schedule, run the reversed
round loop, subtract `s[0]` / `s[1]`, and concatenate the little-endian
bytes of the final `A` and `B`. -/
def decodeBody (m : RC5) (w : Nat) (ciphertext : List Nat) : Option (List Nat) :=
  match copy_from_slice w ciphertext 0 m.words with
  | none => none
  | some aB =>
    match copy_from_slice w ciphertext m.words ciphertext.length with
    | none => none
    | some bB =>
      match generate_block_cipher m w with
      | none => none
      | some s =>
        match decRounds w s (from_le_bytes aB) (from_le_bytes bB) 1 m.rounds with
        | none => none
        | some (a2, b2) =>
          match s.get? 0, s.get? 1 with
          | some s0, some s1 =>
            some (to_le_bytes w (wrapping_sub w a2 s0) ++
              to_le_bytes w (wrapping_sub w b2 s1))
          | _, _ => none

/-- `decode` from `lib.rs`: key-length check first
(`Err("invalid decryption key length")`), then the decryption body. -/
def decode (m : RC5) (w : Nat) (ciphertext : List Nat) :
    Option (Except String (List Nat)) :=
  if m.key.length ≠ m.bytes then some (Except.error "invalid decryption key length")
  else (decodeBody m w ciphertext).map Except.ok

/-- Modelled from the spec (§3, §4.2 step 1): the expanded key buffer
is "the raw key split into consecutive `word_bytes`-byte little-endian
words".  Used as the specification-side value that `buildL` is compared
against. -/
def chunksLE (w : Nat) : List Nat → List Nat
  | [] => []
  | x :: rest =>
    RC5Impl.from_le_bytes ((x :: rest).take w) :: chunksLE w (rest.drop (w - 1))
termination_by l => l.length
decreasing_by simp; omega

end RC5

deriving instance DecidableEq for Except

namespace RC5Impl

theorem M_pos (w : Nat) : 0 < M w := Nat.pos_pow_of_pos _ (by norm_num)

theorem M_eq_pow256 (w : Nat) : M w = 256 ^ w := by
  show 2 ^ (8 * w) = 256 ^ w
  rw [Nat.pow_mul]

theorem wrapping_add_lt (w a b : Nat) : wrapping_add w a b < M w :=
  Nat.mod_lt _ (M_pos w)

theorem wrapping_sub_lt (w a b : Nat) : wrapping_sub w a b < M w :=
  Nat.mod_lt _ (M_pos w)

theorem from_le_bytes_nil : from_le_bytes [] = 0 := rfl

theorem from_le_bytes_cons (x : Nat) (xs : List Nat) :
    from_le_bytes (x :: xs) = x + 256 * from_le_bytes xs := rfl

theorem from_le_bytes_lt (bs : List Nat) (h : ∀ b ∈ bs, b < 256) :
    from_le_bytes bs < 256 ^ bs.length := by
  induction bs with
  | nil => simp [from_le_bytes]
  | cons x xs ih =>
    have hx : x < 256 := h x (by simp)
    have hxs : from_le_bytes xs < 256 ^ xs.length :=
      ih (fun b hb => h b (by simp [hb]))
    rw [from_le_bytes_cons, List.length_cons, pow_succ]
    calc x + 256 * from_le_bytes xs
        < 256 * (from_le_bytes xs + 1) := by omega
      _ ≤ 256 * 256 ^ xs.length := by
          exact Nat.mul_le_mul_left _ (by omega)
      _ = 256 ^ xs.length * 256 := by ring

theorem to_le_bytes_length (w v : Nat) : (to_le_bytes w v).length = w := by
  induction w generalizing v with
  | zero => rfl
  | succ w ih => simp [to_le_bytes, ih]

theorem to_le_bytes_mem_lt (w v : Nat) : ∀ b ∈ to_le_bytes w v, b < 256 := by
  induction w generalizing v with
  | zero => simp [to_le_bytes]
  | succ w ih =>
    intro b hb
    simp only [to_le_bytes, List.mem_cons] at hb
    rcases hb with h | h
    · subst h; exact Nat.mod_lt _ (by norm_num)
    · exact ih _ b h

theorem from_le_to_le (w v : Nat) (hv : v < 256 ^ w) :
    from_le_bytes (to_le_bytes w v) = v := by
  induction w generalizing v with
  | zero =>
    interval_cases v
    rfl
  | succ w ih =>
    have hdiv : v / 256 < 256 ^ w := by
      rw [Nat.div_lt_iff_lt_mul (by norm_num)]
      calc v < 256 ^ (w + 1) := hv
        _ = 256 ^ w * 256 := by ring
    rw [to_le_bytes, from_le_bytes_cons, ih _ hdiv, Nat.mod_add_div]

theorem to_le_from_le (w : Nat) (bs : List Nat) (hl : bs.length = w)
    (hb : ∀ b ∈ bs, b < 256) : to_le_bytes w (from_le_bytes bs) = bs := by
  induction bs generalizing w with
  | nil => subst hl; rfl
  | cons x xs ih =>
    subst hl
    have hx : x < 256 := hb x (by simp)
    rw [from_le_bytes_cons, List.length_cons, to_le_bytes]
    have h1 : (x + 256 * from_le_bytes xs) % 256 = x := by
      rw [Nat.add_mul_mod_self_left, Nat.mod_eq_of_lt hx]
    have h2 : (x + 256 * from_le_bytes xs) / 256 = from_le_bytes xs := by
      rw [Nat.add_mul_div_left _ _ (by norm_num : (0:Nat) < 256),
        Nat.div_eq_of_lt hx, Nat.zero_add]
    rw [h1, h2, ih xs.length rfl (fun b h => hb b (by simp [h]))]

theorem rotl_lt (W v a : Nat) (hW : 0 < W) (hv : v < 2 ^ W) :
    rotl W v a < 2 ^ W := by
  unfold rotl
  set s := a % W with hs
  have hsW : s < W := Nat.mod_lt _ hW
  have hsplit : 2 ^ (W - s) * 2 ^ s = 2 ^ W := by
    rw [← pow_add]; congr 1; omega
  have hA : v % 2 ^ (W - s) < 2 ^ (W - s) := Nat.mod_lt _ (Nat.pos_pow_of_pos _ (by norm_num))
  have hB : v / 2 ^ (W - s) < 2 ^ s := by
    rw [Nat.div_lt_iff_lt_mul (Nat.pos_pow_of_pos _ (by norm_num))]
    calc v < 2 ^ W := hv
      _ = 2 ^ s * 2 ^ (W - s) := by rw [← pow_add]; congr 1; omega
  calc v % 2 ^ (W - s) * 2 ^ s + v / 2 ^ (W - s)
      < v % 2 ^ (W - s) * 2 ^ s + 2 ^ s := by omega
    _ = (v % 2 ^ (W - s) + 1) * 2 ^ s := by ring
    _ ≤ 2 ^ (W - s) * 2 ^ s := Nat.mul_le_mul_right _ (by omega)
    _ = 2 ^ W := hsplit

theorem rotr_rotl (W v a : Nat) (hW : 0 < W) (hv : v < 2 ^ W) :
    rotr W (rotl W v a) a = v := by
  unfold rotl rotr
  set s := a % W with hs
  have hsW : s < W := Nat.mod_lt _ hW
  have hB : v / 2 ^ (W - s) < 2 ^ s := by
    rw [Nat.div_lt_iff_lt_mul (Nat.pos_pow_of_pos _ (by norm_num))]
    calc v < 2 ^ W := hv
      _ = 2 ^ s * 2 ^ (W - s) := by rw [← pow_add]; congr 1; omega
  have hcomm : v % 2 ^ (W - s) * 2 ^ s + v / 2 ^ (W - s)
      = 2 ^ s * (v % 2 ^ (W - s)) + v / 2 ^ (W - s) := by ring
  rw [hcomm]
  have hdiv : (2 ^ s * (v % 2 ^ (W - s)) + v / 2 ^ (W - s)) / 2 ^ s
      = v % 2 ^ (W - s) := by
    rw [Nat.mul_add_div (Nat.pos_pow_of_pos _ (by norm_num)),
      Nat.div_eq_of_lt hB, Nat.add_zero]
  have hmod : (2 ^ s * (v % 2 ^ (W - s)) + v / 2 ^ (W - s)) % 2 ^ s
      = v / 2 ^ (W - s) := by
    rw [Nat.mul_add_mod, Nat.mod_eq_of_lt hB]
  rw [hdiv, hmod]
  exact Nat.mod_add_div' v _

theorem wrapping_sub_wrapping_add (w a b : Nat) (ha : a < M w) :
    wrapping_sub w (wrapping_add w a b) b = a := by
  unfold wrapping_sub wrapping_add
  have hM : 0 < M w := M_pos w
  have hbm : b % M w < M w := Nat.mod_lt _ hM
  have hb : b = M w * (b / M w) + b % M w := (Nat.div_add_mod b (M w)).symm
  rw [Nat.mod_add_mod]
  have key : a + b + (M w - b % M w) = a + M w * (b / M w) + M w := by omega
  rw [key, Nat.add_mod_right, Nat.add_mul_mod_self_left, Nat.mod_eq_of_lt ha]

theorem rotl_div_low (W v a : Nat) (hW : 0 < W) (hv : v < 2 ^ W) :
    rotl W v a / 2 ^ (a % W) = v % 2 ^ (W - a % W) := by
  unfold rotl
  set s := a % W with hs
  have hB : v / 2 ^ (W - s) < 2 ^ s := by
    rw [Nat.div_lt_iff_lt_mul (Nat.pos_pow_of_pos _ (by norm_num))]
    calc v < 2 ^ W := hv
      _ = 2 ^ s * 2 ^ (W - s) := by
          rw [← pow_add]; congr 1
          have : s < W := Nat.mod_lt _ hW
          omega
  rw [show v % 2 ^ (W - s) * 2 ^ s + v / 2 ^ (W - s)
      = 2 ^ s * (v % 2 ^ (W - s)) + v / 2 ^ (W - s) by ring,
    Nat.mul_add_div (Nat.pos_pow_of_pos _ (by norm_num)),
    Nat.div_eq_of_lt hB, Nat.add_zero]

theorem rotl_testBit (W v a k : Nat) (hW : 0 < W) (hv : v < 2 ^ W) (hk : k < W) :
    (rotl W v a).testBit k = v.testBit ((k + (W - a % W)) % W) := by
  set s := a % W with hs
  set d := W - s with hd
  have hsW : s < W := Nat.mod_lt _ hW
  have hds : d + s = W := by omega
  have hdpos : 0 < d := by omega
  by_cases hks : k < s
  · have hR : (k + d) % W = k + d := Nat.mod_eq_of_lt (by omega)
    rw [hR, Nat.testBit_to_div_mod, Nat.testBit_to_div_mod]
    have hsk : 2 ^ s = 2 ^ (s - k) * 2 ^ k := by rw [← pow_add]; congr 1; omega
    have hdivk : rotl W v a / 2 ^ k
        = v % 2 ^ d * 2 ^ (s - k) + v / 2 ^ d / 2 ^ k := by
      unfold rotl
      rw [← hs, ← hd, hsk,
        show v % 2 ^ d * (2 ^ (s - k) * 2 ^ k) + v / 2 ^ d
          = 2 ^ k * (v % 2 ^ d * 2 ^ (s - k)) + v / 2 ^ d by ring,
        Nat.mul_add_div (Nat.pos_pow_of_pos _ (by norm_num))]
    have hdd : v / 2 ^ d / 2 ^ k = v / 2 ^ (k + d) := by
      rw [Nat.div_div_eq_div_mul, ← pow_add, Nat.add_comm d k]
    have heven : 2 ^ (s - k) = 2 * 2 ^ (s - k - 1) := by
      rw [← pow_succ']; congr 1; omega
    rw [hdivk, hdd, heven,
      show v % 2 ^ d * (2 * 2 ^ (s - k - 1)) + v / 2 ^ (k + d)
        = 2 * (v % 2 ^ d * 2 ^ (s - k - 1)) + v / 2 ^ (k + d) by ring,
      Nat.mul_add_mod]
  · have hks2 : s ≤ k := le_of_not_lt hks
    have hR : (k + d) % W = k - s := by
      rw [show k + d = (k - s) + W by omega, Nat.add_mod_right]
      exact Nat.mod_eq_of_lt (by omega)
    have hkk : 2 ^ k = 2 ^ s * 2 ^ (k - s) := by rw [← pow_add]; congr 1; omega
    have hdivk : rotl W v a / 2 ^ k = v % 2 ^ d / 2 ^ (k - s) := by
      rw [hkk, ← Nat.div_div_eq_div_mul, rotl_div_low W v a hW hv]
    rw [hR, Nat.testBit_to_div_mod, hdivk, ← Nat.testBit_to_div_mod,
      Nat.testBit_mod_two_pow]
    have : k - s < d := by omega
    simp [this]

theorem rotr_eq_rotl (W v a : Nat) (hW : 0 < W) (hv : v < 2 ^ W) :
    rotr W v a = rotl W v (W - a % W) := by
  set s := a % W with hs
  have hsW : s < W := Nat.mod_lt _ hW
  by_cases h0 : s = 0
  · unfold rotr rotl
    rw [← hs, h0]
    simp [Nat.mod_self, Nat.mod_eq_of_lt hv, Nat.div_eq_of_lt hv, Nat.mod_one]
  · unfold rotr rotl
    rw [← hs, Nat.mod_eq_of_lt (show W - s < W by omega),
      show W - (W - s) = s by omega, Nat.add_comm]

theorem rotr_testBit (W v a k : Nat) (hW : 0 < W) (hv : v < 2 ^ W) (hk : k < W) :
    (rotr W v a).testBit k = v.testBit ((k + a % W) % W) := by
  rw [rotr_eq_rotl W v a hW hv, rotl_testBit W v _ k hW hv hk]
  set s := a % W with hs
  have hsW : s < W := Nat.mod_lt _ hW
  by_cases h0 : s = 0
  · rw [h0]
    congr 1
    rw [Nat.sub_zero, Nat.mod_self, Nat.sub_zero,
      show k + W = k + 1 * W by ring, Nat.add_mul_mod_self_right, Nat.add_zero]
  · congr 1
    rw [Nat.mod_eq_of_lt (show W - s < W by omega), show W - (W - s) = s by omega]

end RC5Impl

namespace RC5

open RC5Impl

theorem mixSpecRotAB_fst_length (W : Nat) :
    ∀ (f : Nat) (s l : List Nat) (a b i j : Nat),
    (mixSpecRotAB W f s l a b i j).1.length = s.length := by
  intro f
  induction f with
  | zero => intro s l a b i j; rfl
  | succ f ih =>
    intro s l a b i j
    rw [mixSpecRotAB, ih]
    simp

theorem mixLoop_eq_mixSpecRotAB (w : Nat) (hw : 0 < w) (h32 : 8 * w ≤ 32) :
    ∀ (f : Nat) (s l : List Nat) (a b i j : Nat), i < s.length → j < l.length →
    mixLoop w f s l a b i j = some (mixSpecRotAB (8 * w) f s l a b i j) := by
  have hM256 : 256 ≤ M w := by
    unfold M
    calc (256:Nat) = 2 ^ 8 := by norm_num
      _ ≤ 2 ^ (8 * w) := Nat.pow_le_pow_right (by norm_num) (by omega)
  have hMle : M w ≤ 2 ^ 32 := Nat.pow_le_pow_right (by norm_num) h32
  intro f
  induction f with
  | zero => intro s l a b i j _ _; rfl
  | succ f ih =>
    intro s l a b i j hi hj
    have hsi : s.get? i = some (s.get ⟨i, hi⟩) := List.get?_eq_get hi
    have hlj : l.get? j = some (l.get ⟨j, hj⟩) := List.get?_eq_get hj
    have hgs : s.getD i 0 = s.get ⟨i, hi⟩ := List.getD_eq_get s 0 hi
    have hgl : l.getD j 0 = l.get ⟨j, hj⟩ := List.getD_eq_get l 0 hj
    have h3 : from_usize w 3 = 3 := Nat.mod_eq_of_lt (by omega)
    have e1 : ∀ x y z : Nat, wrapping_add w (wrapping_add w x y) z
        = (x + y + z) % 2 ^ (8 * w) := by
      intro x y z
      unfold wrapping_add M
      rw [Nat.mod_add_mod]
    have hrot1 : ∀ x y z : Nat, rotate_left w (wrapping_add w (wrapping_add w x y) z)
        (from_usize w 3)
        = some (rotl (8 * w) ((x + y + z) % 2 ^ (8 * w)) 3) := by
      intro x y z
      unfold rotate_left
      rw [if_pos (by rw [h3]; omega), e1, h3]
    have hrot2 : ∀ x y z : Nat, rotate_left w (wrapping_add w (wrapping_add w x y) z)
        (wrapping_add w y z)
        = some (rotl (8 * w) ((x + y + z) % 2 ^ (8 * w)) ((y + z) % 2 ^ (8 * w))) := by
      intro x y z
      unfold rotate_left
      rw [if_pos (lt_of_lt_of_le (wrapping_add_lt w y z) hMle), e1]
      have : wrapping_add w y z = (y + z) % 2 ^ (8 * w) := rfl
      rw [this]
    rw [mixLoop, mixSpecRotAB]
    simp only [hsi, hlj, hgs, hgl, hrot1, hrot2]
    exact ih _ _ _ _ _ _
      (by rw [List.length_set]; exact Nat.mod_lt _ (by omega))
      (by rw [List.length_set]; exact Nat.mod_lt _ (by omega))

end RC5

namespace RC5

open RC5Impl

theorem mapOption_map (f : Nat → Option Nat) (g : Nat → Nat) (xs : List Nat) :
    mapOption f (xs.map g) = mapOption (fun x => f (g x)) xs := by
  induction xs with
  | nil => rfl
  | cons x xs ih => simp only [List.map_cons, mapOption, ih]

theorem mapOption_congr (f g : Nat → Option Nat) (xs : List Nat)
    (h : ∀ x ∈ xs, f x = g x) : mapOption f xs = mapOption g xs := by
  induction xs with
  | nil => rfl
  | cons x xs ih =>
    simp only [mapOption, h x (by simp), ih (fun y hy => h y (by simp [hy]))]

theorem chunksLE_nil (w : Nat) : chunksLE w [] = [] := by
  rw [chunksLE]

theorem chunksLE_cons (w x : Nat) (rest : List Nat) :
    chunksLE w (x :: rest)
      = RC5Impl.from_le_bytes ((x :: rest).take w) :: chunksLE w (rest.drop (w - 1)) := by
  rw [chunksLE]

theorem copy_from_slice_shift (w : Nat) (key : List Nat) (i : Nat) (h4 : 4 ≤ key.length) :
    copy_from_slice w key (i + 4) (i + 4 + 4) = copy_from_slice w (key.drop 4) i (i + 4) := by
  unfold copy_from_slice
  have hlen : (key.drop 4).length = key.length - 4 := List.length_drop 4 key
  have h44 : i + 4 + 4 - (i + 4) = 4 := by omega
  have h40 : i + 4 - i = 4 := by omega
  rw [h44, h40, List.drop_drop, Nat.add_comm 4 i]
  refine if_congr ?_ rfl rfl
  rw [hlen]
  omega

theorem chunk_aux : ∀ (n : Nat) (key : List Nat), key.length = 4 * n →
    mapOption (fun i => (copy_from_slice 4 key i (i + 4)).map RC5Impl.from_le_bytes)
      ((List.range n).map (fun k => 4 * k)) = some (chunksLE 4 key) := by
  intro n
  induction n with
  | zero =>
    intro key hk
    have : key = [] := List.length_eq_zero.mp (by omega)
    subst this
    simp [mapOption, chunksLE_nil]
  | succ n ih =>
    intro key hk
    obtain ⟨x, rest, rfl⟩ : ∃ x rest, key = x :: rest := by
      cases key with
      | nil => simp at hk
      | cons x rest => exact ⟨x, rest, rfl⟩
    have hlen : (x :: rest).length = 4 * n + 4 := by omega
    rw [mapOption_map, List.range_succ_eq_map, mapOption]
    have h0 : copy_from_slice 4 (x :: rest) (4 * 0) (4 * 0 + 4)
        = some ((x :: rest).take 4) := by
      unfold copy_from_slice
      rw [if_pos (by omega)]
      norm_num
    rw [h0]
    have hshift : ∀ k, k ∈ List.range n →
        (copy_from_slice 4 (x :: rest) (4 * Nat.succ k) (4 * Nat.succ k + 4)).map
            RC5Impl.from_le_bytes
          = (copy_from_slice 4 ((x :: rest).drop 4) (4 * k) (4 * k + 4)).map
            RC5Impl.from_le_bytes := by
      intro k _
      rw [show 4 * Nat.succ k = 4 * k + 4 by omega,
        copy_from_slice_shift 4 (x :: rest) (4 * k) (by omega)]
    have ih2 := ih ((x :: rest).drop 4) (by rw [List.length_drop, hlen]; omega)
    rw [mapOption_map] at ih2
    rw [mapOption_map, mapOption_congr _ _ _ hshift, ih2]
    simp only [Option.map_some', chunksLE_cons, List.drop_succ_cons]

theorem buildL_eq_chunksLE (m : RC5) (hw : m.words = 4) (h4 : m.key.length % 4 = 0)
    (h256 : m.key.length < 256) :
    buildL m 4 = some (if m.key = [] then [0] else chunksLE 4 m.key) := by
  by_cases hk : m.key = []
  · simp [buildL, hk]
  · rw [if_neg hk]
    unfold buildL stepPositions
    rw [if_neg hk, hw, if_neg (by norm_num : ¬ (4:Nat) = 0),
      Nat.mod_eq_of_lt h256]
    have hn : m.key.length = 4 * (m.key.length / 4) := by omega
    rw [show (m.key.length + 4 - 1) / 4 = m.key.length / 4 by omega]
    exact chunk_aux _ m.key hn

theorem buildL_words4_ok (m : RC5) (hw : m.words = 4) (h4 : m.key.length % 4 = 0)
    (h256 : m.key.length < 256) :
    ∃ l, buildL m 4 = some l ∧ 0 < l.length := by
  refine ⟨_, buildL_eq_chunksLE m hw h4 h256, ?_⟩
  by_cases hk : m.key = []
  · simp [hk]
  · rw [if_neg hk]
    cases hkey : m.key with
    | nil => exact absurd hkey hk
    | cons x rest => rw [chunksLE_cons]; simp

end RC5

namespace RC5

open RC5Impl

theorem encStep_lt (w : Nat) (s : List Nat) (a b k a2 b2 : Nat)
    (h : encStep w s a b k = some (a2, b2)) : a2 < M w ∧ b2 < M w := by
  unfold encStep at h
  split at h
  · cases h
  · split at h
    · cases h
    · split at h
      · cases h
      · dsimp only at h
        split at h
        · cases h
        · simp only [Option.some.injEq, Prod.mk.injEq] at h
          obtain ⟨h1, h2⟩ := h
          subst h1
          subst h2
          exact ⟨wrapping_add_lt _ _ _, wrapping_add_lt _ _ _⟩

theorem encStep_ok (w : Nat) (h32 : 8 * w ≤ 32) (s : List Nat) (a b k : Nat)
    (hb : b < M w) (hk : 2 * k + 1 < s.length) :
    ∃ a2 b2, encStep w s a b k = some (a2, b2) := by
  have hMle : M w ≤ 2 ^ 32 := Nat.pow_le_pow_right (by norm_num) h32
  have hget1 : s.get? (2 * k) = some (s.get ⟨2 * k, by omega⟩) :=
    List.get?_eq_get (by omega)
  have hget2 : s.get? (2 * k + 1) = some (s.get ⟨2 * k + 1, hk⟩) :=
    List.get?_eq_get hk
  have hrot1 : rotate_left w (a ^^^ b) b = some (rotl (8 * w) (a ^^^ b) b) :=
    if_pos (lt_of_lt_of_le hb hMle)
  have hrot2 : ∀ v x y : Nat, rotate_left w v (wrapping_add w x y)
      = some (rotl (8 * w) v (wrapping_add w x y)) :=
    fun v x y => if_pos (lt_of_lt_of_le (wrapping_add_lt w x y) hMle)
  simp only [encStep, hget1, hget2, hrot1, hrot2]
  exact ⟨_, _, rfl⟩

end RC5

namespace RC5

open RC5Impl

theorem encRounds_snoc (w : Nat) (s : List Nat) :
    ∀ (f : Nat) (a b lo : Nat), encRounds w s a b lo (f + 1)
      = match encRounds w s a b lo f with
        | none => none
        | some p => encStep w s p.1 p.2 (lo + f) := by
  intro f
  induction f with
  | zero =>
    intro a b lo
    cases h : encStep w s a b lo with
    | none => simp [encRounds, h]
    | some p => cases p with | mk a2 b2 => simp [encRounds, h]
  | succ f ih =>
    intro a b lo
    cases h : encStep w s a b lo with
    | none => simp [encRounds, h]
    | some p =>
      cases p with
      | mk a2 b2 =>
        conv_lhs => rw [encRounds, h]
        conv_rhs => rw [encRounds, h]
        show encRounds w s a2 b2 (lo + 1) (f + 1)
          = match encRounds w s a2 b2 (lo + 1) f with
            | none => none
            | some p => encStep w s p.1 p.2 (lo + (f + 1))
        rw [ih a2 b2 (lo + 1), show lo + 1 + f = lo + (f + 1) by omega]

theorem encRounds_lt (w : Nat) (s : List Nat) :
    ∀ (f : Nat) (a b lo a2 b2 : Nat), a < M w → b < M w →
      encRounds w s a b lo f = some (a2, b2) → a2 < M w ∧ b2 < M w := by
  intro f
  induction f with
  | zero =>
    intro a b lo a2 b2 ha hb h
    simp only [encRounds, Option.some.injEq, Prod.mk.injEq] at h
    obtain ⟨h1, h2⟩ := h
    subst h1
    subst h2
    exact ⟨ha, hb⟩
  | succ f ih =>
    intro a b lo a2 b2 ha hb h
    rw [encRounds] at h
    split at h
    · cases h
    · next pa pb heq =>
      obtain ⟨hp1, hp2⟩ := encStep_lt w s a b lo pa pb heq
      exact ih pa pb (lo + 1) a2 b2 hp1 hp2 h

theorem encRounds_ok (w : Nat) (h32 : 8 * w ≤ 32) (s : List Nat) :
    ∀ (f : Nat) (a b lo : Nat), a < M w → b < M w → 2 * lo + 2 * f ≤ s.length →
      ∃ a2 b2, encRounds w s a b lo f = some (a2, b2) := by
  intro f
  induction f with
  | zero => intro a b lo _ _ _; exact ⟨a, b, rfl⟩
  | succ f ih =>
    intro a b lo ha hb hlen
    obtain ⟨a2, b2, hstep⟩ := encStep_ok w h32 s a b lo hb (by omega)
    obtain ⟨ha2, hb2⟩ := encStep_lt w s a b lo a2 b2 hstep
    obtain ⟨a3, b3, hrec⟩ := ih a2 b2 (lo + 1) ha2 hb2 (by omega)
    refine ⟨a3, b3, ?_⟩
    rw [encRounds, hstep]
    exact hrec

theorem rotate_left_some (w v a r : Nat) (h : rotate_left w v a = some r) :
    r = rotl (8 * w) v a ∧ a < 2 ^ 32 := by
  unfold rotate_left at h
  split at h
  · next hc => cases h; exact ⟨rfl, hc⟩
  · cases h

theorem decStep_inv (w : Nat) (hw : 0 < w) (h32 : 8 * w ≤ 32) (s : List Nat)
    (a b k a2 b2 : Nat) (ha : a < M w) (hb : b < M w)
    (h : encStep w s a b k = some (a2, b2)) : decStep w s a2 b2 k = some (a, b) := by
  have hMle : M w ≤ 2 ^ 32 := Nat.pow_le_pow_right (by norm_num) h32
  have hWpos : 0 < 8 * w := by omega
  unfold encStep at h
  split at h
  · cases h
  · next s2k heq1 =>
    split at h
    · cases h
    · next r heq2 =>
      dsimp only at h
      split at h
      · cases h
      · next s2k1 heq3 =>
        split at h
        · cases h
        · next r2 heq4 =>
          simp only [Option.some.injEq, Prod.mk.injEq] at h
          obtain ⟨ha2, hb2⟩ := h
          obtain ⟨hr, _⟩ := rotate_left_some w (a ^^^ b) b r heq2
          subst hr
          obtain ⟨hr2, _⟩ := rotate_left_some w _ _ r2 heq4
          subst hr2
          subst ha2
          subst hb2
          set a2 := wrapping_add w (rotl (8 * w) (a ^^^ b) b) s2k with ha2def
          have ha2lt : a2 < M w := wrapping_add_lt w _ _
          have hxba : b ^^^ a2 < M w := Nat.xor_lt_two_pow hb ha2lt
          have hxab : a ^^^ b < M w := Nat.xor_lt_two_pow ha hb
          have hsub1 : wrapping_sub w
              (wrapping_add w (rotl (8 * w) (b ^^^ a2) a2) s2k1) s2k1
              = rotl (8 * w) (b ^^^ a2) a2 :=
            wrapping_sub_wrapping_add w _ s2k1 (rotl_lt _ _ _ hWpos hxba)
          have hrr1 : rotate_right w (rotl (8 * w) (b ^^^ a2) a2) a2
              = some (b ^^^ a2) := by
            unfold rotate_right
            rw [if_pos (lt_of_lt_of_le ha2lt hMle),
              rotr_rotl _ _ _ hWpos hxba]
          have hx1 : (b ^^^ a2) ^^^ a2 = b := Nat.xor_cancel_right a2 b
          have hsub2 : wrapping_sub w a2 s2k = rotl (8 * w) (a ^^^ b) b := by
            rw [ha2def]
            exact wrapping_sub_wrapping_add w _ s2k (rotl_lt _ _ _ hWpos hxab)
          have hrr2 : rotate_right w (rotl (8 * w) (a ^^^ b) b) b
              = some (a ^^^ b) := by
            unfold rotate_right
            rw [if_pos (lt_of_lt_of_le hb hMle), rotr_rotl _ _ _ hWpos hxab]
          have hx2 : (a ^^^ b) ^^^ b = a := Nat.xor_cancel_right b a
          unfold decStep
          rw [heq3]
          dsimp only
          rw [hsub1, hrr1]
          dsimp only
          rw [hx1, heq1]
          dsimp only
          rw [hsub2, hrr2]
          dsimp only
          rw [hx2]

theorem decRounds_inv (w : Nat) (hw : 0 < w) (h32 : 8 * w ≤ 32) (s : List Nat) :
    ∀ (f : Nat) (a b lo a2 b2 : Nat), a < M w → b < M w →
      encRounds w s a b lo f = some (a2, b2) →
      decRounds w s a2 b2 lo f = some (a, b) := by
  intro f
  induction f with
  | zero =>
    intro a b lo a2 b2 _ _ h
    simp only [encRounds, Option.some.injEq, Prod.mk.injEq] at h
    obtain ⟨h1, h2⟩ := h
    subst h1
    subst h2
    rfl
  | succ f ih =>
    intro a b lo a2 b2 ha hb h
    rw [encRounds_snoc] at h
    split at h
    · cases h
    · next p heqr =>
      obtain ⟨hp1, hp2⟩ := encRounds_lt w s f a b lo p.1 p.2 ha hb (by rw [heqr])
      have hstep := decStep_inv w hw h32 s p.1 p.2 (lo + f) a2 b2 hp1 hp2 h
      rw [decRounds, hstep]
      exact ih a b lo p.1 p.2 ha hb heqr

end RC5

namespace RC5

open RC5Impl

theorem initS_length (w t : Nat) : (initS w t).length = t := by
  unfold initS
  rw [List.length_map, List.length_range]

theorem initS_eq_spec (w t : Nat) :
    initS w t = (List.range t).map (fun i => (i * Q_W w + P_W w) % 2 ^ (8 * w)) := by
  unfold initS
  refine List.map_congr_left (fun x _ => ?_)
  show wrapping_add w (wrapping_mul w (from_usize w x) (Q_W w)) (P_W w) = _
  unfold wrapping_add wrapping_mul from_usize M
  conv_lhs => rw [Nat.add_mod]
  rw [Nat.mod_mul_mod, ← Nat.add_mod, Nat.mod_add_mod]

theorem mixLoop_fst_length (w : Nat) :
    ∀ (f : Nat) (s l : List Nat) (a b i j : Nat) (s2 l2 : List Nat),
    mixLoop w f s l a b i j = some (s2, l2) → s2.length = s.length := by
  intro f
  induction f with
  | zero =>
    intro s l a b i j s2 l2 h
    simp only [mixLoop, Option.some.injEq, Prod.mk.injEq] at h
    rw [← h.1]
  | succ f ih =>
    intro s l a b i j s2 l2 h
    rw [mixLoop] at h
    split at h
    · cases h
    · split at h
      · cases h
      · split at h
        · cases h
        · split at h
          · cases h
          · have := ih _ _ _ _ _ _ s2 l2 h
            rw [this, List.length_set]

theorem generate_unfold (m : RC5) (w : Nat) (l : List Nat) (hl : buildL m w = some l) :
    generate_block_cipher m w
      = Option.map Prod.fst (mixLoop w (3 * max (2 * (m.rounds + 1)) l.length)
          ((List.range (2 * (m.rounds + 1))).map
            (fun i => (i * Q_W w + P_W w) % 2 ^ (8 * w)))
          l 0 0 0 0) := by
  unfold generate_block_cipher
  rw [hl]
  dsimp only
  rw [show (initS w (2 * (m.rounds + 1))).length = 2 * (m.rounds + 1) from
    initS_length w _, initS_eq_spec]
  cases h : mixLoop w (3 * max (2 * (m.rounds + 1)) l.length)
      ((List.range (2 * (m.rounds + 1))).map
        (fun i => (i * Q_W w + P_W w) % 2 ^ (8 * w))) l 0 0 0 0 with
  | none => rfl
  | some p => cases p with | mk s2 l2 => rfl

theorem generate_some_length (m : RC5) (w : Nat) (s2 : List Nat)
    (h : generate_block_cipher m w = some s2) : s2.length = 2 * (m.rounds + 1) := by
  unfold generate_block_cipher at h
  split at h
  · cases h
  · next l hl =>
    dsimp only at h
    split at h
    · cases h
    · next s3 l3 heq =>
      simp only [Option.some.injEq] at h
      subst h
      rw [mixLoop_fst_length w _ _ _ _ _ _ _ s3 l3 heq, initS_length]

theorem generate_eq_mixSpec (m : RC5) (w : Nat) (hw : 0 < w) (h32 : 8 * w ≤ 32)
    (l : List Nat) (hl : buildL m w = some l) (hlne : 0 < l.length) :
    generate_block_cipher m w
      = some (mixSpecRotAB (8 * w) (3 * max (2 * (m.rounds + 1)) l.length)
          (initS w (2 * (m.rounds + 1))) l 0 0 0 0).1 := by
  unfold generate_block_cipher
  rw [hl]
  dsimp only
  rw [show (initS w (2 * (m.rounds + 1))).length = 2 * (m.rounds + 1) from
    initS_length w _]
  obtain ⟨s2, l2, hpair⟩ : ∃ s2 l2, mixSpecRotAB (8 * w)
      (3 * max (2 * (m.rounds + 1)) l.length)
      (initS w (2 * (m.rounds + 1))) l 0 0 0 0 = (s2, l2) := ⟨_, _, rfl⟩
  rw [mixLoop_eq_mixSpecRotAB w hw h32 _ _ _ 0 0 0 0
    (by rw [initS_length]; omega) hlne, hpair]

end RC5

namespace RC5

open RC5Impl

theorem roundtrip_w32 (key : List Nat) (rounds bytes : Nat) (p : List Nat)
    (hkb : key.length = bytes) (hk4 : key.length % 4 = 0) (hk256 : key.length < 256)
    (hp : p.length = 8) (hpb : ∀ x ∈ p, x < 256) :
    ∃ c, encode ⟨key, 4, rounds, bytes⟩ 4 p = some (Except.ok c)
      ∧ decode ⟨key, 4, rounds, bytes⟩ 4 c = some (Except.ok p) := by
  obtain ⟨l, hl, hlne⟩ := buildL_words4_ok ⟨key, 4, rounds, bytes⟩ rfl hk4 hk256
  obtain ⟨st, hgen⟩ : ∃ st, generate_block_cipher ⟨key, 4, rounds, bytes⟩ 4 = some st :=
    ⟨_, generate_eq_mixSpec ⟨key, 4, rounds, bytes⟩ 4 (by norm_num) (by norm_num) l hl hlne⟩
  have hstlen : st.length = 2 * (rounds + 1) :=
    generate_some_length ⟨key, 4, rounds, bytes⟩ 4 st hgen
  have hA : copy_from_slice 4 p 0 4 = some (p.take 4) := by
    unfold copy_from_slice
    rw [if_pos ⟨by omega, by omega, by omega⟩, List.drop_zero, Nat.sub_zero]
  have hB : copy_from_slice 4 p 4 p.length = some (p.drop 4) := by
    unfold copy_from_slice
    rw [if_pos ⟨by omega, le_refl _, by omega⟩]
    congr 1
    rw [show p.length - 4 = (p.drop 4).length by rw [List.length_drop], List.take_length]
  have htake4 : (p.take 4).length = 4 := by rw [List.length_take]; omega
  have hdrop4 : (p.drop 4).length = 4 := by rw [List.length_drop]; omega
  have ha0 : from_le_bytes (p.take 4) < M 4 := by
    rw [M_eq_pow256]
    have h := from_le_bytes_lt (p.take 4) (fun b hb => hpb b (List.take_subset 4 p hb))
    rw [htake4] at h
    exact h
  have hb0 : from_le_bytes (p.drop 4) < M 4 := by
    rw [M_eq_pow256]
    have h := from_le_bytes_lt (p.drop 4) (fun b hb => hpb b (List.drop_subset 4 p hb))
    rw [hdrop4] at h
    exact h
  obtain ⟨s0, hget0⟩ : ∃ x, st.get? 0 = some x := ⟨_, List.get?_eq_get (by omega)⟩
  obtain ⟨s1, hget1⟩ : ∃ x, st.get? 1 = some x := ⟨_, List.get?_eq_get (by omega)⟩
  obtain ⟨a2, b2, hrounds⟩ := encRounds_ok 4 (by norm_num) st rounds
    (wrapping_add 4 (from_le_bytes (p.take 4)) s0)
    (wrapping_add 4 (from_le_bytes (p.drop 4)) s1) 1
    (wrapping_add_lt 4 _ _) (wrapping_add_lt 4 _ _) (by omega)
  obtain ⟨ha2, hb2⟩ := encRounds_lt 4 st rounds _ _ 1 a2 b2
    (wrapping_add_lt 4 _ _) (wrapping_add_lt 4 _ _) hrounds
  have hbody : encodeBody ⟨key, 4, rounds, bytes⟩ 4 p
      = some (to_le_bytes 4 a2 ++ to_le_bytes 4 b2) := by
    unfold encodeBody
    dsimp only
    rw [hA]
    dsimp only
    rw [hB]
    dsimp only
    rw [hgen]
    dsimp only
    rw [hget0, hget1]
    dsimp only
    rw [hrounds]
  refine ⟨to_le_bytes 4 a2 ++ to_le_bytes 4 b2, ?_, ?_⟩
  · unfold encode
    dsimp only
    rw [if_neg (by omega), hbody]
    rfl
  · have hclen : (to_le_bytes 4 a2 ++ to_le_bytes 4 b2).length = 8 := by
      rw [List.length_append, to_le_bytes_length, to_le_bytes_length]
    have htl := List.take_left (to_le_bytes 4 a2) (to_le_bytes 4 b2)
    rw [to_le_bytes_length] at htl
    have hdl := List.drop_left (to_le_bytes 4 a2) (to_le_bytes 4 b2)
    rw [to_le_bytes_length] at hdl
    have hcA : copy_from_slice 4 (to_le_bytes 4 a2 ++ to_le_bytes 4 b2) 0 4
        = some (to_le_bytes 4 a2) := by
      unfold copy_from_slice
      rw [if_pos ⟨by omega, by omega, by omega⟩, List.drop_zero, Nat.sub_zero, htl]
    have hcB : copy_from_slice 4 (to_le_bytes 4 a2 ++ to_le_bytes 4 b2) 4
        (to_le_bytes 4 a2 ++ to_le_bytes 4 b2).length = some (to_le_bytes 4 b2) := by
      unfold copy_from_slice
      rw [if_pos ⟨by omega, le_refl _, by omega⟩, hdl,
        show (to_le_bytes 4 a2 ++ to_le_bytes 4 b2).length - 4
          = (to_le_bytes 4 b2).length from by rw [hclen, to_le_bytes_length],
        List.take_length]
    have hfa : from_le_bytes (to_le_bytes 4 a2) = a2 :=
      from_le_to_le 4 a2 (by rw [← M_eq_pow256]; exact ha2)
    have hfb : from_le_bytes (to_le_bytes 4 b2) = b2 :=
      from_le_to_le 4 b2 (by rw [← M_eq_pow256]; exact hb2)
    have hdec := decRounds_inv 4 (by norm_num) (by norm_num) st rounds
      (wrapping_add 4 (from_le_bytes (p.take 4)) s0)
      (wrapping_add 4 (from_le_bytes (p.drop 4)) s1) 1 a2 b2
      (wrapping_add_lt 4 _ _) (wrapping_add_lt 4 _ _) hrounds
    have hsa : wrapping_sub 4 (wrapping_add 4 (from_le_bytes (p.take 4)) s0) s0
        = from_le_bytes (p.take 4) := wrapping_sub_wrapping_add 4 _ s0 ha0
    have hsb : wrapping_sub 4 (wrapping_add 4 (from_le_bytes (p.drop 4)) s1) s1
        = from_le_bytes (p.drop 4) := wrapping_sub_wrapping_add 4 _ s1 hb0
    have hta : to_le_bytes 4 (from_le_bytes (p.take 4)) = p.take 4 :=
      to_le_from_le 4 _ htake4 (fun b hb => hpb b (List.take_subset 4 p hb))
    have htb : to_le_bytes 4 (from_le_bytes (p.drop 4)) = p.drop 4 :=
      to_le_from_le 4 _ hdrop4 (fun b hb => hpb b (List.drop_subset 4 p hb))
    have hbodyd : decodeBody ⟨key, 4, rounds, bytes⟩ 4
        (to_le_bytes 4 a2 ++ to_le_bytes 4 b2) = some p := by
      unfold decodeBody
      dsimp only
      rw [hcA]
      dsimp only
      rw [hcB]
      dsimp only
      rw [hgen]
      dsimp only
      rw [hfa, hfb, hdec]
      dsimp only
      rw [hget0, hget1]
      dsimp only
      rw [hsa, hsb, hta, htb, List.take_append_drop]
    unfold decode
    dsimp only
    rw [if_neg (by omega), hbodyd]
    rfl

end RC5

namespace RC5

open RC5Impl

theorem encode_ok_of_key_ok (m : RC5) (w : Nat) (p : List Nat)
    (h : m.key.length = m.bytes) :
    encode m w p = (encodeBody m w p).map Except.ok := by
  unfold encode
  rw [if_neg (by omega)]

theorem decode_ok_of_key_ok (m : RC5) (w : Nat) (p : List Nat)
    (h : m.key.length = m.bytes) :
    decode m w p = (decodeBody m w p).map Except.ok := by
  unfold decode
  rw [if_neg (by omega)]

theorem encode_no_error_of_key_ok (m : RC5) (w : Nat) (p : List Nat)
    (h : m.key.length = m.bytes) (e : String) :
    encode m w p ≠ some (Except.error e) := by
  rw [encode_ok_of_key_ok m w p h]
  cases hb : encodeBody m w p with
  | none => simp
  | some c => simp

theorem decode_no_error_of_key_ok (m : RC5) (w : Nat) (p : List Nat)
    (h : m.key.length = m.bytes) (e : String) :
    decode m w p ≠ some (Except.error e) := by
  rw [decode_ok_of_key_ok m w p h]
  cases hb : decodeBody m w p with
  | none => simp
  | some c => simp

theorem copy_from_slice_some (w : Nat) (p bs : List Nat) (start stop : Nat)
    (h : copy_from_slice w p start stop = some bs) :
    start ≤ stop ∧ stop ≤ p.length ∧ stop - start = w := by
  unfold copy_from_slice at h
  split at h
  · next hc => exact hc
  · cases h

theorem encodeBody_some_shape (m : RC5) (w : Nat) (p c : List Nat)
    (h : encodeBody m w p = some c) :
    m.words = w ∧ ∃ a b, a < M w ∧ b < M w
      ∧ c = to_le_bytes w a ++ to_le_bytes w b := by
  unfold encodeBody at h
  split at h
  · cases h
  · next aB heqA =>
    have hcA := copy_from_slice_some w p aB 0 m.words heqA
    have hwords : m.words = w := by omega
    refine ⟨hwords, ?_⟩
    split at h
    · cases h
    · next bB heqB =>
      split at h
      · cases h
      · next st heqS =>
        split at h
        · next s0 s1 heq0 heq1 =>
          dsimp only at h
          split at h
          · cases h
          · next a2 b2 heqR =>
            simp only [Option.some.injEq] at h
            obtain ⟨ha2, hb2⟩ := encRounds_lt w st m.rounds _ _ 1 a2 b2
              (wrapping_add_lt w _ _) (wrapping_add_lt w _ _) heqR
            exact ⟨a2, b2, ha2, hb2, h.symm⟩
        · cases h

theorem encodeBody_none_of_bad_len (m : RC5) (w : Nat) (p : List Nat)
    (hlen : p.length ≠ m.words + w) : encodeBody m w p = none := by
  unfold encodeBody
  by_cases h1 : 0 ≤ m.words ∧ m.words ≤ p.length ∧ m.words - 0 = w
  · unfold copy_from_slice
    rw [if_pos h1, if_neg (by omega)]
  · unfold copy_from_slice
    rw [if_neg h1]

theorem decodeBody_none_of_bad_len (m : RC5) (w : Nat) (p : List Nat)
    (hlen : p.length ≠ m.words + w) : decodeBody m w p = none := by
  unfold decodeBody
  by_cases h1 : 0 ≤ m.words ∧ m.words ≤ p.length ∧ m.words - 0 = w
  · unfold copy_from_slice
    rw [if_pos h1, if_neg (by omega)]
  · unfold copy_from_slice
    rw [if_neg h1]

theorem mixLoop_nil_l (w : Nat) (f : Nat) (s : List Nat) (a b i j : Nat) :
    mixLoop w (f + 1) s [] a b i j = none := by
  rw [mixLoop]
  cases hsi : s.get? i with
  | none => rfl
  | some si =>
    have h3 : from_usize w 3 < 2 ^ 32 :=
      lt_of_le_of_lt (Nat.mod_le 3 (M w)) (by norm_num)
    dsimp only
    rw [show rotate_left w (wrapping_add w (wrapping_add w si a) b) (from_usize w 3)
      = some (rotl (8 * w) (wrapping_add w (wrapping_add w si a) b) (from_usize w 3))
      from if_pos h3]
    dsimp only
    rw [show ([] : List Nat).get? j = none from List.get?_eq_none.mpr (by simp)]

theorem buildL_256 (m : RC5) (w : Nat) (hkey : m.key.length = 256)
    (hw : 0 < m.words) : buildL m w = some [] := by
  have hne : m.key ≠ [] := by
    intro h
    rw [h] at hkey
    simp at hkey
  unfold buildL stepPositions
  rw [if_neg hne, if_neg (by omega), hkey]
  rw [show (256 % 256 : Nat) = 0 by norm_num,
    show (0 + m.words - 1) / m.words = 0 from Nat.div_eq_of_lt (by omega)]
  rfl

theorem generate_256 (m : RC5) (w : Nat) (hkey : m.key.length = 256)
    (hw : 0 < m.words) : generate_block_cipher m w = none := by
  unfold generate_block_cipher
  rw [buildL_256 m w hkey hw]
  dsimp only
  rw [show 3 * max (initS w (2 * (m.rounds + 1))).length ([] : List Nat).length
    = 3 * (2 * (m.rounds + 1)) by rw [initS_length]; simp]
  rw [show 3 * (2 * (m.rounds + 1)) = (3 * (2 * (m.rounds + 1)) - 1) + 1 by omega]
  rw [mixLoop_nil_l]

end RC5

open RC5 RC5Impl

/-- C1: the claim as stated is false.  The engine with `T = u16`
(`w = 2`), key `[0, 0]` (so `key.len() = key_bytes_len = 2`) and the
block `[0, 0, 0, 0]` of length `2 · word_bytes = 4` satisfies the
claim's hypotheses, yet `encode` panics (the key-chunking step reads a
hard-coded 4-byte slice from the 2-byte key), so
`decode(encode(p)) = Ok(p)` fails. -/
theorem C1_counterexample :
    (⟨[0, 0], 2, 1, 2⟩ : RC5).key.length = (⟨[0, 0], 2, 1, 2⟩ : RC5).bytes
    ∧ ([0, 0, 0, 0] : List Nat).length = 2 * (⟨[0, 0], 2, 1, 2⟩ : RC5).words
    ∧ ¬ ∃ c, encode ⟨[0, 0], 2, 1, 2⟩ 2 [0, 0, 0, 0] = some (Except.ok c)
        ∧ decode ⟨[0, 0], 2, 1, 2⟩ 2 c = some (Except.ok [0, 0, 0, 0]) := by
  refine ⟨rfl, rfl, ?_⟩
  rintro ⟨c, hc, -⟩
  have h : encode ⟨[0, 0], 2, 1, 2⟩ 2 [0, 0, 0, 0] = none := by decide
  rw [h] at hc
  cases hc

/-- C1 (amended): for word width 32 (`T = u32`, `word_bytes = 4`), a
key whose length equals `key_bytes_len`, is a multiple of 4 and is
below 256, and every 8-byte block `p` of byte values, decrypting the
encryption of `p` with the same engine returns `p`:
`decode(encode(p)) = Ok(p)`. -/
theorem C1_round_trip (key : List Nat) (rounds bytes : Nat) (p : List Nat)
    (hkb : key.length = bytes) (hk4 : key.length % 4 = 0) (hk256 : key.length < 256)
    (hp : p.length = 8) (hpb : ∀ x ∈ p, x < 256) :
    ∃ c, encode ⟨key, 4, rounds, bytes⟩ 4 p = some (Except.ok c)
      ∧ decode ⟨key, 4, rounds, bytes⟩ 4 c = some (Except.ok p) :=
  roundtrip_w32 key rounds bytes p hkb hk4 hk256 hp hpb

/-- C1 (witness): the round-trip theorem applied to the reference key
`00 01 ... 0F`, 12 rounds, and the plaintext `00 11 22 33 44 55 66 77`. -/
theorem C1_round_trip_witness :
    ∃ c, encode ⟨[0x00, 0x01, 0x02, 0x03, 0x04, 0x05, 0x06, 0x07, 0x08, 0x09,
        0x0A, 0x0B, 0x0C, 0x0D, 0x0E, 0x0F], 4, 12, 16⟩ 4
        [0x00, 0x11, 0x22, 0x33, 0x44, 0x55, 0x66, 0x77] = some (Except.ok c)
      ∧ decode ⟨[0x00, 0x01, 0x02, 0x03, 0x04, 0x05, 0x06, 0x07, 0x08, 0x09,
        0x0A, 0x0B, 0x0C, 0x0D, 0x0E, 0x0F], 4, 12, 16⟩ 4 c
        = some (Except.ok [0x00, 0x11, 0x22, 0x33, 0x44, 0x55, 0x66, 0x77]) :=
  C1_round_trip _ 12 16 _ (by decide) (by decide) (by decide) (by decide) (by decide)

/-- C2: with `word_bytes = 4`, `rounds = 12`, `key_bytes_len = 16`, the
two reference vectors encrypt to the stated ciphertexts, and decoding
each ciphertext with the same key returns the original plaintext. -/
theorem C2_known_vectors :
    encode ⟨[0x00, 0x01, 0x02, 0x03, 0x04, 0x05, 0x06, 0x07, 0x08, 0x09,
        0x0A, 0x0B, 0x0C, 0x0D, 0x0E, 0x0F], 4, 12, 16⟩ 4
      [0x00, 0x11, 0x22, 0x33, 0x44, 0x55, 0x66, 0x77]
      = some (Except.ok [0x2D, 0xDC, 0x14, 0x9B, 0xCF, 0x08, 0x8B, 0x9E])
    ∧ encode ⟨[0x2B, 0xD6, 0x45, 0x9F, 0x82, 0xC5, 0xB3, 0x00, 0x95, 0x2C,
        0x49, 0x10, 0x48, 0x81, 0xFF, 0x48], 4, 12, 16⟩ 4
      [0xEA, 0x02, 0x47, 0x14, 0xAD, 0x5C, 0x4D, 0x84]
      = some (Except.ok [0x11, 0xE4, 0x3B, 0x86, 0xD2, 0x31, 0xEA, 0x64])
    ∧ decode ⟨[0x00, 0x01, 0x02, 0x03, 0x04, 0x05, 0x06, 0x07, 0x08, 0x09,
        0x0A, 0x0B, 0x0C, 0x0D, 0x0E, 0x0F], 4, 12, 16⟩ 4
      [0x2D, 0xDC, 0x14, 0x9B, 0xCF, 0x08, 0x8B, 0x9E]
      = some (Except.ok [0x00, 0x11, 0x22, 0x33, 0x44, 0x55, 0x66, 0x77])
    ∧ decode ⟨[0x2B, 0xD6, 0x45, 0x9F, 0x82, 0xC5, 0xB3, 0x00, 0x95, 0x2C,
        0x49, 0x10, 0x48, 0x81, 0xFF, 0x48], 4, 12, 16⟩ 4
      [0x11, 0xE4, 0x3B, 0x86, 0xD2, 0x31, 0xEA, 0x64]
      = some (Except.ok [0xEA, 0x02, 0x47, 0x14, 0xAD, 0x5C, 0x4D, 0x84]) := by
  refine ⟨by decide, by decide, by decide, by decide⟩

/-- C3: the claim as stated is false.  On the mixing state actually
reached by the engine with key `FF FF FF FF`, `word_bytes = 4` and
`rounds = 0` (whose expanded key is `[0xFFFFFFFF]`, initial table
`initS 4 2` and iteration count `3 · max(2, 1) = 6`), the loop of the
source (`mixLoop`, which rotates the `B` update by `A + B`) disagrees
with a loop whose `B` update rotates by the current `A`
(`mixSpecRotA`). -/
theorem C3_counterexample :
    buildL ⟨[0xFF, 0xFF, 0xFF, 0xFF], 4, 0, 4⟩ 4 = some [0xFFFFFFFF]
    ∧ mixLoop 4 6 (initS 4 2) [0xFFFFFFFF] 0 0 0 0
      ≠ some (mixSpecRotA 32 6 (initS 4 2) [0xFFFFFFFF] 0 0 0 0) := by
  refine ⟨by decide, by decide⟩

/-- C3 (amended): in every iteration of the key-schedule mixing loop
the accumulator `B` is updated as
`B = rotate_left(L[j] + A + B, A + B)` — the rotation amount is the
wrapping sum of the just-updated `A` and the previous `B`, taken mod
`W`: for word sizes of at most 32 bits the source's loop is panic-free
and equal to the total loop `mixSpecRotAB` written from that step
list. -/
theorem C3_mixing_rotation (w : Nat) (hw : 0 < w) (h32 : 8 * w ≤ 32)
    (f : Nat) (s l : List Nat) (a b i j : Nat) (hi : i < s.length)
    (hj : j < l.length) :
    mixLoop w f s l a b i j = some (mixSpecRotAB (8 * w) f s l a b i j) :=
  mixLoop_eq_mixSpecRotAB w hw h32 f s l a b i j hi hj

/-- C3 (witness): the amended mixing equivalence applied to the state
reached by the engine with key `FF FF FF FF` and `rounds = 0`. -/
theorem C3_mixing_rotation_witness :
    mixLoop 4 6 (initS 4 2) [0xFFFFFFFF] 0 0 0 0
      = some (mixSpecRotAB (8 * 4) 6 (initS 4 2) [0xFFFFFFFF] 0 0 0 0) :=
  C3_mixing_rotation 4 (by decide) (by decide) 6 (initS 4 2) [0xFFFFFFFF]
    0 0 0 0 (by decide) (by decide)

/-- C4: the claim as stated is false.  For `W = 16` (`w = 2`) and the
two-byte key `[0, 0]`, the spec's chunking yields the single word
`[0]`, but the source's key-chunking panics — `copy_from_slice` always
reads a hard-coded 4-byte slice (`i .. i + 4`) regardless of the word
size — so `buildL` is not the chunked key. -/
theorem C4_counterexample :
    buildL ⟨[0, 0], 2, 12, 2⟩ 2 = none ∧ chunksLE 2 [0, 0] = [0] := by
  constructor
  · decide
  · rw [chunksLE_cons, show List.drop (2 - 1) [0] = ([] : List Nat) from rfl,
      chunksLE_nil]
    rfl

/-- C4 (amended): for word width 32 (`word_bytes = 4`) and a key whose
length is a multiple of 4 and below 256, the expanded key buffer `L`
equals the raw key split into consecutive 4-byte little-endian words,
and equals `[0]` when the key is empty. -/
theorem C4_expanded_key (m : RC5) (hw : m.words = 4) (h4 : m.key.length % 4 = 0)
    (h256 : m.key.length < 256) :
    buildL m 4 = some (if m.key = [] then [0] else chunksLE 4 m.key) :=
  buildL_eq_chunksLE m hw h4 h256

/-- C4 (witness): the expanded-key characterization applied to the
8-byte key `[1, 2, 3, 4, 5, 6, 7, 8]`. -/
theorem C4_expanded_key_witness :
    buildL ⟨[1, 2, 3, 4, 5, 6, 7, 8], 4, 0, 8⟩ 4
      = some (if ([1, 2, 3, 4, 5, 6, 7, 8] : List Nat) = [] then [0]
          else chunksLE 4 [1, 2, 3, 4, 5, 6, 7, 8]) :=
  C4_expanded_key ⟨[1, 2, 3, 4, 5, 6, 7, 8], 4, 0, 8⟩ rfl (by decide) (by decide)

/-- C5: the claim as stated is false.  For `W = 64` the rotation amount
is a `u64` word value converted with `try_into().unwrap()` to `u32`;
the word amount `2^32` (a valid `u64` value) makes both rotate
operations panic instead of rotating by `2^32 mod 64 = 0`. -/
theorem C5_counterexample :
    (1 : Nat) < 2 ^ (8 * 8) ∧ (2 ^ 32 : Nat) < 2 ^ (8 * 8)
    ∧ RC5Impl.rotate_left 8 1 (2 ^ 32) = none
    ∧ RC5Impl.rotate_right 8 1 (2 ^ 32) = none := by
  refine ⟨by decide, by decide, by decide, by decide⟩

/-- C5 (amended): for word widths 16 and 32 the trait rotations are
total, and for width 64 they are defined exactly when the amount fits
in 32 bits; whenever defined they are the circular bit rotation of the
value by `amount mod W` positions (bit `k` of `rotate_left v a` is bit
`(k + W - a mod W) mod W` of `v`, and bit `k` of `rotate_right v a` is
bit `(k + a mod W) mod W` of `v`), so only the low `log2 W` bits of the
amount are significant. -/
theorem C5_rotation_total (w v a : Nat)
    (hcase : w = 2 ∨ w = 4 ∨ (w = 8 ∧ a < 2 ^ 32))
    (hv : v < 2 ^ (8 * w)) (ha : a < 2 ^ (8 * w)) :
    ∃ r s, RC5Impl.rotate_left w v a = some r
      ∧ RC5Impl.rotate_right w v a = some s
      ∧ (∀ k, k < 8 * w →
          r.testBit k = v.testBit ((k + (8 * w - a % (8 * w))) % (8 * w)))
      ∧ (∀ k, k < 8 * w →
          s.testBit k = v.testBit ((k + a % (8 * w)) % (8 * w))) := by
  have ha32 : a < 2 ^ 32 := by
    rcases hcase with h | h | ⟨h, h32⟩
    · subst h
      exact lt_of_lt_of_le ha (by norm_num)
    · subst h
      simpa using ha
    · exact h32
  have hW : 0 < 8 * w := by
    rcases hcase with h | h | ⟨h, -⟩ <;> omega
  refine ⟨rotl (8 * w) v a, rotr (8 * w) v a, if_pos ha32, if_pos ha32, ?_, ?_⟩
  · intro k hk
    exact rotl_testBit (8 * w) v a k hW hv hk
  · intro k hk
    exact rotr_testBit (8 * w) v a k hW hv hk

/-- C5 (witness): the rotation characterization applied at `W = 32`,
value 1, amount 33. -/
theorem C5_rotation_total_witness :
    ∃ r s, RC5Impl.rotate_left 4 1 33 = some r
      ∧ RC5Impl.rotate_right 4 1 33 = some s
      ∧ (∀ k, k < 8 * 4 →
          r.testBit k = Nat.testBit 1 ((k + (8 * 4 - 33 % (8 * 4))) % (8 * 4)))
      ∧ (∀ k, k < 8 * 4 →
          s.testBit k = Nat.testBit 1 ((k + 33 % (8 * 4)) % (8 * 4))) :=
  C5_rotation_total 4 1 33 (Or.inr (Or.inl rfl)) (by decide) (by decide)

/-- C6: `encode` returns `Err("invalid encryption key length")` and
`decode` returns `Err("invalid decryption key length")` exactly when
the stored key's byte length differs from the configured
`key_bytes_len`; the check precedes all other work (the error is
produced for every input block, and with a well-sized key no error
value is ever returned), and the engine, being immutable, is not
changed. -/
theorem C6_invalid_key_length (m : RC5) (w : Nat) (p : List Nat) :
    ((∃ e, encode m w p = some (Except.error e)) ↔ m.key.length ≠ m.bytes)
    ∧ ((∃ e, decode m w p = some (Except.error e)) ↔ m.key.length ≠ m.bytes)
    ∧ (m.key.length ≠ m.bytes →
        encode m w p = some (Except.error "invalid encryption key length")
        ∧ decode m w p = some (Except.error "invalid decryption key length")) := by
  by_cases h : m.key.length = m.bytes
  · refine ⟨⟨?_, fun hc => absurd h hc⟩, ⟨?_, fun hc => absurd h hc⟩,
      fun hc => absurd h hc⟩
    · rintro ⟨e, he⟩
      exact absurd he (encode_no_error_of_key_ok m w p h e)
    · rintro ⟨e, he⟩
      exact absurd he (decode_no_error_of_key_ok m w p h e)
  · have he : encode m w p = some (Except.error "invalid encryption key length") := by
      unfold encode
      rw [if_pos h]
    have hd : decode m w p = some (Except.error "invalid decryption key length") := by
      unfold decode
      rw [if_pos h]
    exact ⟨⟨fun _ => h, fun _ => ⟨_, he⟩⟩, ⟨fun _ => h, fun _ => ⟨_, hd⟩⟩,
      fun _ => ⟨he, hd⟩⟩

/-- C6 (witness): the key-length error characterization applied to an
engine whose 0-byte key mismatches `key_bytes_len = 1`. -/
theorem C6_invalid_key_length_witness :
    ((∃ e, encode ⟨[], 4, 0, 1⟩ 4 [] = some (Except.error e))
        ↔ (⟨[], 4, 0, 1⟩ : RC5).key.length ≠ (⟨[], 4, 0, 1⟩ : RC5).bytes)
    ∧ ((∃ e, decode ⟨[], 4, 0, 1⟩ 4 [] = some (Except.error e))
        ↔ (⟨[], 4, 0, 1⟩ : RC5).key.length ≠ (⟨[], 4, 0, 1⟩ : RC5).bytes)
    ∧ ((⟨[], 4, 0, 1⟩ : RC5).key.length ≠ (⟨[], 4, 0, 1⟩ : RC5).bytes →
        encode ⟨[], 4, 0, 1⟩ 4 [] = some (Except.error "invalid encryption key length")
        ∧ decode ⟨[], 4, 0, 1⟩ 4 []
          = some (Except.error "invalid decryption key length")) :=
  C6_invalid_key_length ⟨[], 4, 0, 1⟩ 4 []

/-- C7: whenever the expanded key `l` is built, the key schedule has
length `t = 2·(rounds+1)`, its initial table is
`S[i] = (i·Q + P) mod 2^W` (wrapping multiply/add), and
`generate_block_cipher` is exactly the mixing loop run for
`3·max(t, len(l))` iterations from `A = B = 0`, `i = j = 0` (the loop
itself cycling `i` mod `t` and `j` mod `len(l)`). -/
theorem C7_key_schedule (m : RC5) (w : Nat) (l s2 : List Nat)
    (hl : buildL m w = some l) (hs : generate_block_cipher m w = some s2) :
    s2.length = 2 * (m.rounds + 1)
    ∧ generate_block_cipher m w
      = Option.map Prod.fst (mixLoop w (3 * max (2 * (m.rounds + 1)) l.length)
          ((List.range (2 * (m.rounds + 1))).map
            (fun i => (i * Q_W w + P_W w) % 2 ^ (8 * w)))
          l 0 0 0 0) :=
  ⟨generate_some_length m w s2 hs, generate_unfold m w l hl⟩

/-- C7 (witness): the key-schedule characterization applied to the
engine with an empty key and `rounds = 0`. -/
theorem C7_key_schedule_witness :
    ([1304066938, 505221497] : List Nat).length
        = 2 * ((⟨[], 4, 0, 0⟩ : RC5).rounds + 1)
    ∧ generate_block_cipher ⟨[], 4, 0, 0⟩ 4
      = Option.map Prod.fst (mixLoop 4
          (3 * max (2 * ((⟨[], 4, 0, 0⟩ : RC5).rounds + 1)) ([0] : List Nat).length)
          ((List.range (2 * ((⟨[], 4, 0, 0⟩ : RC5).rounds + 1))).map
            (fun i => (i * Q_W 4 + P_W 4) % 2 ^ (8 * 4)))
          [0] 0 0 0 0) :=
  C7_key_schedule ⟨[], 4, 0, 0⟩ 4 [0] [1304066938, 505221497] (by decide) (by decide)

/-- C8: every successful `encode` call returns the concatenation of the
little-endian bytes of the final `A` word followed by those of the
final `B` word — a ciphertext of exactly `2 · word_bytes` bytes (which
also forces the engine's `words` field to equal the word size). -/
theorem C8_ciphertext_shape (m : RC5) (w : Nat) (p c : List Nat)
    (h : encode m w p = some (Except.ok c)) :
    m.words = w ∧ c.length = 2 * m.words
    ∧ ∃ a b, a < 2 ^ (8 * w) ∧ b < 2 ^ (8 * w)
        ∧ c = to_le_bytes w a ++ to_le_bytes w b := by
  unfold encode at h
  split at h
  · simp at h
  · cases hb : encodeBody m w p with
    | none => rw [hb] at h; simp at h
    | some c2 =>
      rw [hb] at h
      simp only [Option.map_some', Option.some.injEq, Except.ok.injEq] at h
      subst h
      obtain ⟨hw, a, b, ha, hbound, hc⟩ := encodeBody_some_shape m w p c2 hb
      refine ⟨hw, ?_, a, b, ha, hbound, hc⟩
      rw [hc, List.length_append, to_le_bytes_length, to_le_bytes_length, hw]
      omega

/-- C8 (witness): the ciphertext-shape theorem applied to the first
reference vector. -/
theorem C8_ciphertext_shape_witness :
    (⟨[0x00, 0x01, 0x02, 0x03, 0x04, 0x05, 0x06, 0x07, 0x08, 0x09,
        0x0A, 0x0B, 0x0C, 0x0D, 0x0E, 0x0F], 4, 12, 16⟩ : RC5).words = 4
    ∧ ([0x2D, 0xDC, 0x14, 0x9B, 0xCF, 0x08, 0x8B, 0x9E] : List Nat).length
        = 2 * (⟨[0x00, 0x01, 0x02, 0x03, 0x04, 0x05, 0x06, 0x07, 0x08, 0x09,
            0x0A, 0x0B, 0x0C, 0x0D, 0x0E, 0x0F], 4, 12, 16⟩ : RC5).words
    ∧ ∃ a b, a < 2 ^ (8 * 4) ∧ b < 2 ^ (8 * 4)
        ∧ ([0x2D, 0xDC, 0x14, 0x9B, 0xCF, 0x08, 0x8B, 0x9E] : List Nat)
          = to_le_bytes 4 a ++ to_le_bytes 4 b :=
  C8_ciphertext_shape ⟨[0x00, 0x01, 0x02, 0x03, 0x04, 0x05, 0x06, 0x07, 0x08, 0x09,
      0x0A, 0x0B, 0x0C, 0x0D, 0x0E, 0x0F], 4, 12, 16⟩ 4
    [0x00, 0x11, 0x22, 0x33, 0x44, 0x55, 0x66, 0x77]
    [0x2D, 0xDC, 0x14, 0x9B, 0xCF, 0x08, 0x8B, 0x9E] (by decide)

/-- C9: with a well-sized key, `encode` and `decode` do not validate
the block length: for every input whose length differs from
`words + w` (the `A`-slice width plus the word size read for `B`), the
byte-slicing step panics — the result is a fault (`none`), not a clean
error. -/
theorem C9_no_block_validation (m : RC5) (w : Nat) (p : List Nat)
    (hkey : m.key.length = m.bytes) (hlen : p.length ≠ m.words + w) :
    encode m w p = none ∧ decode m w p = none := by
  constructor
  · rw [encode_ok_of_key_ok m w p hkey, encodeBody_none_of_bad_len m w p hlen]
    rfl
  · rw [decode_ok_of_key_ok m w p hkey, decodeBody_none_of_bad_len m w p hlen]
    rfl

/-- C9 (witness): a 3-byte input to the reference engine (block size
8) makes both operations fault. -/
theorem C9_no_block_validation_witness :
    encode ⟨[0x00, 0x01, 0x02, 0x03, 0x04, 0x05, 0x06, 0x07, 0x08, 0x09,
        0x0A, 0x0B, 0x0C, 0x0D, 0x0E, 0x0F], 4, 12, 16⟩ 4 [0, 1, 2] = none
    ∧ decode ⟨[0x00, 0x01, 0x02, 0x03, 0x04, 0x05, 0x06, 0x07, 0x08, 0x09,
        0x0A, 0x0B, 0x0C, 0x0D, 0x0E, 0x0F], 4, 12, 16⟩ 4 [0, 1, 2] = none :=
  C9_no_block_validation _ 4 [0, 1, 2] (by decide) (by decide)

/-- C10: the key length is truncated to `u8` before chunking
(`key.len() as u8`), so a key of exactly 256 bytes yields an empty
chunk-position list, hence an empty expanded key `L`, and the mixing
loop faults (`l[0]` / `% 0`) instead of computing a schedule. -/
theorem C10_key_len_truncation (m : RC5) (w : Nat)
    (hkey : m.key.length = 256) (hw : 0 < m.words) :
    buildL m w = some [] ∧ generate_block_cipher m w = none :=
  ⟨buildL_256 m w hkey hw, generate_256 m w hkey hw⟩

/-- C10 (witness): a 256-byte all-zero key with `word_bytes = 4`. -/
theorem C10_key_len_truncation_witness :
    buildL ⟨List.replicate 256 0, 4, 12, 256⟩ 4 = some []
    ∧ generate_block_cipher ⟨List.replicate 256 0, 4, 12, 256⟩ 4 = none :=
  C10_key_len_truncation ⟨List.replicate 256 0, 4, 12, 256⟩ 4
    (List.length_replicate 256 0) (by decide)
